import Mathlib

/-!
Shallow embedding of the batching core of the repository
`LLMops-Model-Inferencing` (files `src/model_inferencing/sorting.py` and
`src/model_deployment/quantization.py`).

A tokenized input is a list of token ids; batching operates only on the
lists of ids (the surrounding tokenizer / model calls are external
collaborators).  Both `predict_sorted_batches` variants are Python
generators; we embed the full run of each generator: the ordered list of
token batches it yields, together with the error (if any) that the run
raises.  `torch.tensor(...)`, `batch_generate(...)` and device transfer
are outside the batching logic and are not modelled: the generator yields
one prediction list per token batch, in one-to-one correspondence with
the batch, so the batch plan itself is the embedded object.
-/

/-- A tokenized sequence: an ordered list of token ids (`list[int]`). -/
abbrev Sequence : Type := List Nat

/-- A batch: an ordered list of sequences. -/
abbrev Batch : Type := List Sequence

/-- Token count of a batch: the sum of the lengths of its sequences. -/
def token_count (b : Batch) : Nat := (b.map List.length).sum

/-- Minimum sequence length contained in a batch (`0` for an empty batch),
computed as Python `min(len(s) for s in b)` would. -/
def minLen : Batch → Nat
  | [] => 0
  | s :: rest => rest.foldl (fun a t => min a t.length) s.length

/-! ## track_time (both files, identical code)

```python
@contextmanager
def track_time():
    start = time.time()
    yield
    end = time.time()
    print(f"Execution time: ...")
```

There is no `try/finally` around the `yield`.  Under
`contextlib.contextmanager` semantics, when the `with` block finishes
without an exception (including leaving it early via `break` or
`return`), `__exit__` resumes the generator normally, so `end = ...` and
the `print` run.  When an exception escapes the `with` block,
`__exit__` throws it into the generator at the `yield`; since nothing
catches it there, the lines after `yield` never run and nothing is
reported.  We embed the control flow: the wall-clock values themselves
are not modelled, only whether the elapsed-time report happens. -/

/-- How the unit of work wrapped by `track_time` exits:
normal completion, early (non-exceptional) exit such as `break` or
`return` out of the `with` block, or an exception escaping the block. -/
inductive BodyExit (α : Type) where
  | normal (a : α)
  | early (a : α)
  | raised (e : String)
deriving DecidableEq, Repr

/-- Run of the `track_time` context manager around a wrapped unit of work:
returns the propagated outcome and whether the elapsed time was reported.
The report happens exactly when the generator is resumed normally after
its `yield`, i.e. when no exception escapes the `with` block. -/
def track_time {α : Type} : BodyExit α → BodyExit α × Bool
  | .normal a => (.normal a, true)
  | .early a => (.early a, true)
  | .raised e => (.raised e, false)

/-! ## chunker (`sorting.py`)

```python
def chunker(seq, max_size):
    return (seq[pos : pos + max_size] for pos in range(0, len(seq), max_size))
```

`range(0, n, step)` raises `ValueError` when `step == 0` (and the
generator expression evaluates its outermost iterable — the `range`
call — eagerly, when `chunker` is called); it is empty when `step < 0`
and `n >= 0`; for `step > 0` it yields `0, step, 2*step, ...`, i.e.
`ceil(n / step)` positions.  `seq[pos : pos + m]` is `take m (drop pos)`. -/

/-- The `ValueError` raised by `range(0, n, 0)`. -/
def chunkerZeroErr : String := "ValueError: range() arg 3 must not be zero"

/-- The `ValueError` raised by `max(())` on an empty dict. -/
def maxEmptyErr : String := "ValueError: max() arg is an empty sequence"

/-- The chunks produced by `chunker` for a positive `max_size = m`:
slice `seq[i*m : i*m + m]` for each position `i*m` of
`range(0, len(seq), m)`. -/
def chunkList (m : Nat) (seq : List Sequence) : List Batch :=
  (List.range ((seq.length + m - 1) / m)).map fun i => (seq.drop (i * m)).take m

/-- Full run of the `chunker` generator, `max_size` an arbitrary Python
int: `ValueError` for step `0`, no chunks for a negative step, and the
slice chunks for a positive step. -/
def chunker (seq : List Sequence) (max_size : Int) : Except String (List Batch) :=
  if max_size = 0 then .error chunkerZeroErr
  else if max_size < 0 then .ok []
  else .ok (chunkList max_size.toNat seq)

/-! ## Sorting and length bucketing (both files, identical code)

```python
sorted_tokens = sorted(tokenized_inputs, key=len)
sorted_batches = {}
for sorted_token in sorted_tokens:
    if not len(sorted_token):
        continue
    length = len(sorted_token)
    if length not in sorted_batches:
        sorted_batches[length] = []
    sorted_batches[length].append(sorted_token)
```

Python `sorted(key=len)` is a stable ascending sort by length; insertion
sort with `fun a b => a.length ≤ b.length` (which keeps an element
before later elements of equal length) computes the same list.  The
Python dict preserves insertion order, so the dict is embedded as an
association list to which `insertGrouped` appends: a new key goes to the
end, an existing key has the sequence appended to its group. -/

/-- Stable ascending sort by sequence length (`sorted(tokens, key=len)`). -/
def sortByLen (tokens : List Sequence) : List Sequence :=
  List.insertionSort (fun a b => a.length ≤ b.length) tokens

/-- Append one sequence to the insertion-ordered dict
`sorted_batches : dict[int, list[list[int]]]` keyed by length. -/
def insertGrouped : List (Nat × List Sequence) → Sequence → List (Nat × List Sequence)
  | [], t => [(t.length, [t])]
  | (k, g) :: rest, t =>
    if k = t.length then (k, g ++ [t]) :: rest
    else (k, g) :: insertGrouped rest t

/-- One iteration of the bucketing loop: zero-length sequences are
skipped (`if not len(sorted_token): continue`). -/
def groupStep (m : List (Nat × List Sequence)) (t : Sequence) : List (Nat × List Sequence) :=
  if t.length = 0 then m else insertGrouped m t

/-- The `sorted_batches` dict built from the length-sorted tokens. -/
def buildGroups (tokens : List Sequence) : List (Nat × List Sequence) :=
  (sortByLen tokens).foldl groupStep []

/-- Flatten an association list of length groups back to its sequences,
in traversal order. -/
def groupsFlatten (m : List (Nat × List Sequence)) : List Sequence :=
  (m.map Prod.snd).flatten

/-- Keys of the length-group dict, in iteration order. -/
def groupKeys (m : List (Nat × List Sequence)) : List Nat := m.map Prod.fst

/-! ## sorting.py : predict_sorted_batches (fixed item-count policy)

```python
for length, sorted_batch in sorted_batches.items():
    for batch in chunker(sorted_batch, max_batch_size):
        ...
        yield batch_generate(tensor_batch, tokenizer, model)
```

The run of this generator yields one batch per chunk, group by group; a
`ValueError` from `chunker` (only when `max_batch_size == 0`) aborts the
run at that group, after the batches already yielded. -/

namespace Sorting

/-- One length group of the outer loop: append the chunks of the group,
or record the error that aborts the generator run. -/
def groupChunks (max_batch_size : Int) (acc : List Batch × Option String)
    (p : Nat × List Sequence) : List Batch × Option String :=
  match acc.2 with
  | some _ => acc
  | none =>
    match chunker p.2 max_batch_size with
    | .error e => (acc.1, some e)
    | .ok cs => (acc.1 ++ cs, none)

/-- Full run of `sorting.py`'s `predict_sorted_batches` on tokenized
inputs: the ordered list of token batches the generator yields, paired
with the error aborting the run, if any. -/
def predict_sorted_batches (inputs : List Sequence) (max_batch_size : Int) :
    List Batch × Option String :=
  (buildGroups inputs).foldl (groupChunks max_batch_size) ([], none)

end Sorting

/-! ## quantization.py : predict_sorted_batches (token-budget policy)

```python
max_size = max(sorted_batches.keys())
for length, sorted_batch in sorted_batches.items():
    current_batch = []
    current_batch_size = 0
    for batch in sorted_batch:
        if current_batch_size + len(batch) > max_size:
            ... yield batch_generate(torch.tensor(current_batch) ...)
            current_batch, current_batch_size = [], 0
        current_batch.append(batch)
        current_batch_size += len(batch)
    if current_batch:
        ... yield ...
```

The token budget is not a parameter: it is `max_size`, the largest
sequence length present in the input.  `max()` over the keys of an empty
dict raises `ValueError` before anything is yielded. -/

/-- State of the token-budget accumulation loop: batches emitted so far,
the running `current_batch`, and `current_batch_size`. -/
structure PackState where
  emitted : List Batch
  cur : Batch
  size : Nat
deriving Repr, DecidableEq

/-- One iteration of the token-budget loop body. -/
def packStep (budget : Nat) (st : PackState) (b : Sequence) : PackState :=
  if budget < st.size + b.length then
    { emitted := st.emitted ++ [st.cur], cur := [b], size := b.length }
  else
    { st with cur := st.cur ++ [b], size := st.size + b.length }

/-- Batches emitted for one length group under the token-budget policy,
including the final flush of a non-empty leftover `current_batch`. -/
def packGroup (budget : Nat) (group : List Sequence) : List Batch :=
  let st := group.foldl (packStep budget) ⟨[], [], 0⟩
  if st.cur.isEmpty then st.emitted else st.emitted ++ [st.cur]

/-- Python `max(sorted_batches.keys())`: `none` exactly when the dict is
empty (where the source raises `ValueError`). -/
def maxKeys : List (Nat × List Sequence) → Option Nat
  | [] => none
  | p :: rest => some (rest.foldl (fun a q => max a q.1) p.1)

namespace Quantization

/-- Full run of `quantization.py`'s `predict_sorted_batches` on tokenized
inputs: either the `ValueError` from `max()` over an empty dict (raised
before any batch is yielded), or the ordered list of yielded token
batches. -/
def predict_sorted_batches (inputs : List Sequence) : Except String (List Batch) :=
  let groups := buildGroups inputs
  match maxKeys groups with
  | none => .error maxEmptyErr
  | some max_size => .ok ((groups.map fun p => packGroup max_size p.2).flatten)

/-- The implicit token budget used by `quantization.py`: the maximum
sequence length present among the non-empty inputs (`0` if none). -/
def budget (inputs : List Sequence) : Nat :=
  (maxKeys (buildGroups inputs)).getD 0

end Quantization

/-- Well-formedness of the `sorted_batches` dict: every group is
non-empty, has a non-zero key, and holds exactly the sequences of that
length. -/
def GoodGroups (m : List (Nat × List Sequence)) : Prop :=
  ∀ p ∈ m, p.2 ≠ [] ∧ p.1 ≠ 0 ∧ ∀ s ∈ p.2, s.length = p.1

/-- Invariant of the token-budget accumulation loop, assuming every item
fits in the budget: `current_batch_size` tracks the token count of
`current_batch`, the running batch is within budget, and every emitted
batch is non-empty and within budget. -/
def PackInv (budget : Nat) (st : PackState) : Prop :=
  st.size = token_count st.cur ∧ token_count st.cur ≤ budget ∧
  ∀ b ∈ st.emitted, b ≠ [] ∧ token_count b ≤ budget

section Sanity

example : chunkList 2 [[7], [8], [9], [10], [11]] = [[[7], [8]], [[9], [10]], [[11]]] := by decide

example : Sorting.predict_sorted_batches [[1], [2], [3], [4], [5]] 2 =
    ([[[1], [2]], [[3], [4]], [[5]]], none) := by decide

example : Sorting.predict_sorted_batches [[1]] (-1) = ([], none) := by decide

example : Sorting.predict_sorted_batches [[1]] 0 = ([], some chunkerZeroErr) := by decide

example : Quantization.predict_sorted_batches [[]] = .error maxEmptyErr := by rfl

example : Quantization.predict_sorted_batches [[1], [2, 3], [4, 5], [6, 7]] =
    .ok [[[1]], [[2, 3]], [[4, 5]], [[6, 7]]] := by rfl

example : Quantization.predict_sorted_batches [[1], [2], [3], [4, 5]] =
    .ok [[[1], [2]], [[3]], [[4, 5]]] := by rfl

end Sanity

/-! ## Lemmas about `chunkList` / `chunker` -/

theorem chunkList_nil (m : Nat) : chunkList m [] = [] := by
  unfold chunkList
  have h : (([] : List Sequence).length + m - 1) / m = 0 := by
    simp only [List.length_nil, Nat.zero_add]
    rcases Nat.eq_zero_or_pos m with h | h
    · subst h; rfl
    · exact Nat.div_eq_of_lt (by omega)
  rw [h]
  simp

theorem chunkList_cons (m : Nat) (hm : 1 ≤ m) (seq : List Sequence) (hs : seq ≠ []) :
    chunkList m seq = seq.take m :: chunkList m (seq.drop m) := by
  have hn : 1 ≤ seq.length := List.length_pos.mpr hs
  have hcount : (seq.length + m - 1) / m = ((seq.drop m).length + m - 1) / m + 1 := by
    rw [List.length_drop]
    rcases Nat.le_total m seq.length with h | h
    · have h1 : seq.length - m + m - 1 = seq.length - 1 := by omega
      have h2 : seq.length + m - 1 = (seq.length - 1) + m := by omega
      rw [h1, h2, Nat.add_div_right _ hm]
    · have h1 : seq.length - m = 0 := by omega
      have h2 : (0 + m - 1) / m = 0 := Nat.div_eq_of_lt (by omega)
      have h3 : (seq.length + m - 1) / m = 1 := by
        apply Nat.div_eq_of_lt_le (by omega) (by omega)
      rw [h1, h2, h3]
  unfold chunkList
  rw [hcount, List.range_succ_eq_map, List.map_cons, List.map_map]
  congr 1
  · simp
  · apply List.map_congr_left
    intro i _
    simp only [Function.comp_apply]
    rw [List.drop_drop, Nat.succ_mul, Nat.add_comm (i * m) m]

theorem chunkList_flatten (m : Nat) (hm : 1 ≤ m) (seq : List Sequence) :
    (chunkList m seq).flatten = seq := by
  by_cases hs : seq = []
  · subst hs; simp [chunkList_nil]
  · rw [chunkList_cons m hm seq hs, List.flatten_cons,
      chunkList_flatten m hm (seq.drop m), List.take_append_drop]
termination_by seq.length
decreasing_by
  have h1 : 1 ≤ seq.length := List.length_pos.mpr hs
  simp [List.length_drop]
  omega

theorem chunkList_mem (m : Nat) (hm : 1 ≤ m) (seq : List Sequence) :
    ∀ c ∈ chunkList m seq, c ≠ [] ∧ c.length ≤ m := by
  by_cases hs : seq = []
  · subst hs; simp [chunkList_nil]
  · rw [chunkList_cons m hm seq hs]
    intro c hc
    rcases List.mem_cons.mp hc with rfl | hc'
    · constructor
      · have h1 : 1 ≤ seq.length := List.length_pos.mpr hs
        have : 0 < (seq.take m).length := by
          rw [List.length_take]; omega
        exact List.length_pos.mp this
      · rw [List.length_take]; omega
    · exact chunkList_mem m hm (seq.drop m) c hc'
termination_by seq.length
decreasing_by
  have h1 : 1 ≤ seq.length := List.length_pos.mpr hs
  simp [List.length_drop]
  omega

theorem chunkList_dropLast (m : Nat) (hm : 1 ≤ m) (seq : List Sequence) :
    ∀ c ∈ (chunkList m seq).dropLast, c.length = m := by
  by_cases hs : seq = []
  · subst hs; simp [chunkList_nil]
  · rw [chunkList_cons m hm seq hs]
    by_cases h2 : chunkList m (seq.drop m) = []
    · rw [h2]; simp
    · rw [List.dropLast_cons_of_ne_nil h2]
      intro c hc
      rcases List.mem_cons.mp hc with rfl | hc'
      · have hlen : m ≤ seq.length := by
          by_contra hlt
          have hd : seq.drop m = [] := List.drop_eq_nil_of_le (by omega)
          rw [hd, chunkList_nil] at h2
          exact h2 rfl
        rw [List.length_take]; omega
      · exact chunkList_dropLast m hm (seq.drop m) c hc'
termination_by seq.length
decreasing_by
  have h1 : 1 ≤ seq.length := List.length_pos.mpr hs
  simp [List.length_drop]
  omega

theorem chunker_pos (seq : List Sequence) (m : Int) (hm : 1 ≤ m) :
    chunker seq m = .ok (chunkList m.toNat seq) := by
  unfold chunker
  rw [if_neg (by omega), if_neg (by omega)]

theorem chunker_negStep (seq : List Sequence) (m : Int) (hm : m < 0) :
    chunker seq m = .ok [] := by
  unfold chunker
  rw [if_neg (by omega), if_pos hm]

/-! ## Lemmas about length bucketing -/


theorem groupsFlatten_cons (p : Nat × List Sequence) (m : List (Nat × List Sequence)) :
    groupsFlatten (p :: m) = p.2 ++ groupsFlatten m := by
  simp [groupsFlatten]

theorem groupKeys_cons (p : Nat × List Sequence) (m : List (Nat × List Sequence)) :
    groupKeys (p :: m) = p.1 :: groupKeys m := rfl

theorem insertGrouped_flatten_perm (m : List (Nat × List Sequence)) (t : Sequence) :
    (groupsFlatten (insertGrouped m t)).Perm (groupsFlatten m ++ [t]) := by
  induction m with
  | nil => simp [insertGrouped, groupsFlatten]
  | cons p rest ih =>
    obtain ⟨k, g⟩ := p
    by_cases hk : k = t.length
    · have heq : insertGrouped ((k, g) :: rest) t = (k, g ++ [t]) :: rest := by
        simp [insertGrouped, hk]
      rw [heq, groupsFlatten_cons, groupsFlatten_cons, List.append_assoc, List.append_assoc]
      exact List.Perm.append_left g List.perm_append_comm
    · have heq : insertGrouped ((k, g) :: rest) t = (k, g) :: insertGrouped rest t := by
        simp [insertGrouped, hk]
      rw [heq, groupsFlatten_cons, groupsFlatten_cons, List.append_assoc]
      exact List.Perm.append_left g ih

theorem insertGrouped_keys_mem (m : List (Nat × List Sequence)) (t : Sequence)
    (h : t.length ∈ groupKeys m) : groupKeys (insertGrouped m t) = groupKeys m := by
  induction m with
  | nil => simp [groupKeys] at h
  | cons p rest ih =>
    obtain ⟨k, g⟩ := p
    by_cases hk : k = t.length
    · have heq : insertGrouped ((k, g) :: rest) t = (k, g ++ [t]) :: rest := by
        simp [insertGrouped, hk]
      rw [heq, groupKeys_cons, groupKeys_cons]
    · have h' : t.length ∈ groupKeys rest := by
        rw [groupKeys_cons] at h
        rcases List.mem_cons.mp h with h | h
        · exact absurd h.symm hk
        · exact h
      have heq : insertGrouped ((k, g) :: rest) t = (k, g) :: insertGrouped rest t := by
        simp [insertGrouped, hk]
      rw [heq, groupKeys_cons, groupKeys_cons, ih h']

theorem insertGrouped_keys_not_mem (m : List (Nat × List Sequence)) (t : Sequence)
    (h : t.length ∉ groupKeys m) :
    groupKeys (insertGrouped m t) = groupKeys m ++ [t.length] := by
  induction m with
  | nil => simp [insertGrouped, groupKeys]
  | cons p rest ih =>
    obtain ⟨k, g⟩ := p
    by_cases hk : k = t.length
    · exfalso
      apply h
      rw [groupKeys_cons, ← hk]
      exact List.mem_cons_self _ _
    · have h' : t.length ∉ groupKeys rest := by
        intro hc
        apply h
        rw [groupKeys_cons]
        exact List.mem_cons_of_mem _ hc
      have heq : insertGrouped ((k, g) :: rest) t = (k, g) :: insertGrouped rest t := by
        simp [insertGrouped, hk]
      rw [heq, groupKeys_cons, ih h', groupKeys_cons, List.cons_append]

theorem insertGrouped_good (m : List (Nat × List Sequence)) (t : Sequence)
    (hm : GoodGroups m) (ht : t.length ≠ 0) : GoodGroups (insertGrouped m t) := by
  induction m with
  | nil =>
    intro p hp
    simp only [insertGrouped, List.mem_singleton] at hp
    subst hp
    exact ⟨by simp, ht, by simp⟩
  | cons q rest ih =>
    obtain ⟨k, g⟩ := q
    by_cases hk : k = t.length
    · have heq : insertGrouped ((k, g) :: rest) t = (k, g ++ [t]) :: rest := by
        simp [insertGrouped, hk]
      rw [heq]
      intro p hp
      rcases List.mem_cons.mp hp with rfl | hp
      · obtain ⟨h1, h2, h3⟩ := hm (k, g) (by simp)
        refine ⟨by simp, h2, ?_⟩
        intro s hs
        rcases List.mem_append.mp hs with hs | hs
        · exact h3 s hs
        · simp only [List.mem_singleton] at hs
          subst hs
          exact hk.symm
      · exact hm p (List.mem_cons_of_mem _ hp)
    · have heq : insertGrouped ((k, g) :: rest) t = (k, g) :: insertGrouped rest t := by
        simp [insertGrouped, hk]
      rw [heq]
      intro p hp
      rcases List.mem_cons.mp hp with rfl | hp
      · exact hm (k, g) (by simp)
      · exact ih (fun q hq => hm q (List.mem_cons_of_mem _ hq)) p hp

theorem foldl_groupStep_flatten_perm (ts : List Sequence) :
    ∀ m : List (Nat × List Sequence),
      (groupsFlatten (ts.foldl groupStep m)).Perm
        (groupsFlatten m ++ ts.filter (fun t => t.length != 0)) := by
  induction ts with
  | nil => intro m; simp
  | cons t rest ih =>
    intro m
    by_cases ht : t.length = 0
    · rw [List.foldl_cons, show groupStep m t = m from by simp [groupStep, ht],
        List.filter_cons, if_neg (by simp [ht])]
      exact ih m
    · rw [List.foldl_cons, show groupStep m t = insertGrouped m t from by simp [groupStep, ht],
        List.filter_cons, if_pos (by simp [ht])]
      refine (ih (insertGrouped m t)).trans ?_
      refine ((insertGrouped_flatten_perm m t).append_right _).trans ?_
      rw [List.append_assoc, List.singleton_append]

theorem foldl_groupStep_good (ts : List Sequence) :
    ∀ m : List (Nat × List Sequence), GoodGroups m → GoodGroups (ts.foldl groupStep m) := by
  induction ts with
  | nil => intro m hm; exact hm
  | cons t rest ih =>
    intro m hm
    by_cases ht : t.length = 0
    · rw [List.foldl_cons, show groupStep m t = m from by simp [groupStep, ht]]
      exact ih m hm
    · rw [List.foldl_cons, show groupStep m t = insertGrouped m t from by simp [groupStep, ht]]
      exact ih _ (insertGrouped_good m t hm ht)

theorem foldl_groupStep_keys_sorted (ts : List Sequence) :
    ∀ m : List (Nat × List Sequence),
      List.Pairwise (fun a b : Sequence => a.length ≤ b.length) ts →
      (groupKeys m).Pairwise (· < ·) →
      (∀ k ∈ groupKeys m, ∀ t ∈ ts, k ≤ t.length) →
      (groupKeys (ts.foldl groupStep m)).Pairwise (· < ·) := by
  induction ts with
  | nil => intro m _ hkeys _; exact hkeys
  | cons t rest ih =>
    intro m hsort hkeys hbound
    obtain ⟨hhead, htail⟩ := List.pairwise_cons.mp hsort
    by_cases ht : t.length = 0
    · rw [List.foldl_cons, show groupStep m t = m from by simp [groupStep, ht]]
      exact ih m htail hkeys
        (fun k hk t' ht' => hbound k hk t' (List.mem_cons_of_mem _ ht'))
    · rw [List.foldl_cons, show groupStep m t = insertGrouped m t from by simp [groupStep, ht]]
      apply ih (insertGrouped m t) htail
      · by_cases hmem : t.length ∈ groupKeys m
        · rw [insertGrouped_keys_mem m t hmem]
          exact hkeys
        · rw [insertGrouped_keys_not_mem m t hmem]
          refine List.pairwise_append.mpr ⟨hkeys, by simp, ?_⟩
          intro a ha b hb
          simp only [List.mem_singleton] at hb
          subst hb
          have h1 : a ≤ t.length := hbound a ha t (List.mem_cons_self _ _)
          have h2 : a ≠ t.length := fun hc => hmem (hc ▸ ha)
          omega
      · intro k hk t' ht'
        have hsub : k ∈ groupKeys m ++ [t.length] := by
          by_cases hmem : t.length ∈ groupKeys m
          · rw [insertGrouped_keys_mem m t hmem] at hk
            exact List.mem_append_left _ hk
          · rw [insertGrouped_keys_not_mem m t hmem] at hk
            exact hk
        rcases List.mem_append.mp hsub with hk' | hk'
        · exact hbound k hk' t' (List.mem_cons_of_mem _ ht')
        · simp only [List.mem_singleton] at hk'
          subst hk'
          exact hhead t' ht'

instance : IsTotal Sequence (fun a b => a.length ≤ b.length) :=
  ⟨fun a b => Nat.le_total a.length b.length⟩

instance : IsTrans Sequence (fun a b => a.length ≤ b.length) :=
  ⟨fun _ _ _ h1 h2 => Nat.le_trans h1 h2⟩

theorem sortByLen_perm (tokens : List Sequence) : (sortByLen tokens).Perm tokens :=
  List.perm_insertionSort _ tokens

theorem sortByLen_sorted (tokens : List Sequence) :
    List.Pairwise (fun a b : Sequence => a.length ≤ b.length) (sortByLen tokens) :=
  List.sorted_insertionSort _ tokens

theorem buildGroups_flatten_perm (inputs : List Sequence) :
    (groupsFlatten (buildGroups inputs)).Perm
      (inputs.filter (fun t => t.length != 0)) := by
  refine (foldl_groupStep_flatten_perm (sortByLen inputs) []).trans ?_
  rw [show groupsFlatten [] = [] from rfl, List.nil_append]
  exact (sortByLen_perm inputs).filter _

theorem buildGroups_good (inputs : List Sequence) : GoodGroups (buildGroups inputs) :=
  foldl_groupStep_good (sortByLen inputs) [] (fun p hp => absurd hp (List.not_mem_nil p))

theorem buildGroups_keys_sorted (inputs : List Sequence) :
    (groupKeys (buildGroups inputs)).Pairwise (· < ·) := by
  refine foldl_groupStep_keys_sorted (sortByLen inputs) [] (sortByLen_sorted inputs)
    List.Pairwise.nil ?_
  intro k hk
  exact absurd hk (by simp [groupKeys])

theorem buildGroups_nil_of_all_empty (inputs : List Sequence)
    (h : ∀ s ∈ inputs, s.length = 0) : buildGroups inputs = [] := by
  unfold buildGroups
  have h' : ∀ s ∈ sortByLen inputs, s.length = 0 := by
    intro s hs
    exact h s ((sortByLen_perm inputs).mem_iff.mp hs)
  have aux : ∀ (ts : List Sequence) (m : List (Nat × List Sequence)),
      (∀ s ∈ ts, s.length = 0) → ts.foldl groupStep m = m := by
    intro ts
    induction ts with
    | nil => intro m _; rfl
    | cons t rest ih =>
      intro m hts
      rw [List.foldl_cons,
        show groupStep m t = m from by simp [groupStep, hts t (List.mem_cons_self _ _)]]
      exact ih m (fun s hs => hts s (List.mem_cons_of_mem _ hs))
  exact aux (sortByLen inputs) [] h'

theorem buildGroups_mem_length (inputs : List Sequence) {p : Nat × List Sequence}
    (hp : p ∈ buildGroups inputs) : ∀ s ∈ p.2, s.length = p.1 :=
  (buildGroups_good inputs p hp).2.2

/-! ## Lemmas about the sorting.py generator run -/

theorem foldl_groupChunks_err (mbs : Int) (gs : List (Nat × List Sequence))
    (acc : List Batch) (e : String) :
    gs.foldl (Sorting.groupChunks mbs) (acc, some e) = (acc, some e) := by
  induction gs with
  | nil => rfl
  | cons p rest ih => rw [List.foldl_cons, show Sorting.groupChunks mbs (acc, some e) p = (acc, some e) from rfl, ih]

theorem foldl_groupChunks_ok (mbs : Int) (F : Nat × List Sequence → List Batch)
    (hF : ∀ p : Nat × List Sequence, chunker p.2 mbs = .ok (F p)) (gs : List (Nat × List Sequence)) :
    ∀ acc : List Batch,
      gs.foldl (Sorting.groupChunks mbs) (acc, none) = (acc ++ (gs.map F).flatten, none) := by
  induction gs with
  | nil => intro acc; simp
  | cons p rest ih =>
    intro acc
    rw [List.foldl_cons,
      show Sorting.groupChunks mbs (acc, none) p = (acc ++ F p, none) from by
        simp [Sorting.groupChunks, hF p],
      ih (acc ++ F p), List.map_cons, List.flatten_cons, List.append_assoc]

theorem predict_sorting_pos (inputs : List Sequence) (mbs : Int) (hm : 1 ≤ mbs) :
    Sorting.predict_sorted_batches inputs mbs =
      (((buildGroups inputs).map (fun p => chunkList mbs.toNat p.2)).flatten, none) := by
  unfold Sorting.predict_sorted_batches
  rw [foldl_groupChunks_ok mbs _ (fun p => chunker_pos p.2 mbs hm) (buildGroups inputs) [],
    List.nil_append]

theorem predict_sorting_neg (inputs : List Sequence) (mbs : Int) (hm : mbs < 0) :
    Sorting.predict_sorted_batches inputs mbs = ([], none) := by
  unfold Sorting.predict_sorted_batches
  rw [foldl_groupChunks_ok mbs (fun _ => []) (fun p => chunker_negStep p.2 mbs hm)
    (buildGroups inputs) []]
  rw [List.nil_append, show ∀ gs : List (Nat × List Sequence),
    (gs.map fun _ => ([] : List Batch)).flatten = [] from ?_]
  · intro gs
    induction gs with
    | nil => rfl
    | cons p rest ih => rw [List.map_cons, List.flatten_cons, List.nil_append, ih]

theorem predict_sorting_zero (inputs : List Sequence) (h : buildGroups inputs ≠ []) :
    Sorting.predict_sorted_batches inputs 0 = ([], some chunkerZeroErr) := by
  unfold Sorting.predict_sorted_batches
  obtain ⟨p, gs, hgs⟩ := List.exists_cons_of_ne_nil h
  rw [hgs, List.foldl_cons,
    show Sorting.groupChunks 0 ([], none) p = ([], some chunkerZeroErr) from by
      simp [Sorting.groupChunks, chunker],
    foldl_groupChunks_err]

/-! ## Lemmas about the token-budget packing loop -/

theorem pack_foldl_flatten (budget : Nat) (g : List Sequence) :
    ∀ st : PackState,
      (g.foldl (packStep budget) st).emitted.flatten ++ (g.foldl (packStep budget) st).cur =
        st.emitted.flatten ++ st.cur ++ g := by
  induction g with
  | nil => intro st; simp
  | cons b rest ih =>
    intro st
    rw [List.foldl_cons]
    by_cases hfl : budget < st.size + b.length
    · rw [show packStep budget st b =
          ⟨st.emitted ++ [st.cur], [b], b.length⟩ from by simp [packStep, hfl]]
      rw [ih]
      simp [List.append_assoc]
    · rw [show packStep budget st b =
          { st with cur := st.cur ++ [b], size := st.size + b.length } from by
            simp [packStep, hfl]]
      rw [ih]
      simp [List.append_assoc]

theorem packGroup_flatten (budget : Nat) (g : List Sequence) :
    (packGroup budget g).flatten = g := by
  unfold packGroup
  have h := pack_foldl_flatten budget g ⟨[], [], 0⟩
  simp only [List.flatten_nil, List.nil_append] at h
  by_cases hc : (g.foldl (packStep budget) ⟨[], [], 0⟩).cur.isEmpty
  · rw [if_pos hc]
    rw [List.isEmpty_iff.mp hc, List.append_nil] at h
    exact h
  · rw [if_neg hc, List.flatten_append]
    simp only [List.flatten_cons, List.flatten_nil, List.append_nil]
    exact h

theorem pack_foldl_inv (budget : Nat) (g : List Sequence)
    (hg : ∀ s ∈ g, s.length ≤ budget) :
    ∀ st : PackState, PackInv budget st → PackInv budget (g.foldl (packStep budget) st) := by
  induction g with
  | nil => intro st hst; exact hst
  | cons b rest ih =>
    intro st hst
    obtain ⟨hsize, hcur, hemit⟩ := hst
    have hb : b.length ≤ budget := hg b (List.mem_cons_self _ _)
    have hrest : ∀ s ∈ rest, s.length ≤ budget :=
      fun s hs => hg s (List.mem_cons_of_mem _ hs)
    rw [List.foldl_cons]
    by_cases hfl : budget < st.size + b.length
    · rw [show packStep budget st b =
          ⟨st.emitted ++ [st.cur], [b], b.length⟩ from by simp [packStep, hfl]]
      apply ih hrest
      refine ⟨by simp [token_count], by simp [token_count]; omega, ?_⟩
      intro bb hbb
      rcases List.mem_append.mp hbb with hbb | hbb
      · exact hemit bb hbb
      · simp only [List.mem_singleton] at hbb
        subst hbb
        constructor
        · intro hnil
          rw [hnil] at hsize
          simp [token_count] at hsize
          omega
        · omega
    · rw [show packStep budget st b =
          { st with cur := st.cur ++ [b], size := st.size + b.length } from by
            simp [packStep, hfl]]
      apply ih hrest
      refine ⟨?_, ?_, hemit⟩
      · simp [token_count, List.map_append, List.sum_append]
        simp [token_count] at hsize
        omega
      · simp [token_count, List.map_append, List.sum_append]
        simp [token_count] at hsize
        omega

theorem packGroup_batches (budget : Nat) (g : List Sequence)
    (hg : ∀ s ∈ g, s.length ≤ budget) :
    ∀ b ∈ packGroup budget g, b ≠ [] ∧ token_count b ≤ budget := by
  have hinv := pack_foldl_inv budget g hg ⟨[], [], 0⟩
    ⟨by simp [token_count], by simp [token_count], by simp⟩
  obtain ⟨hsize, hcur, hemit⟩ := hinv
  intro b hb
  unfold packGroup at hb
  by_cases hc : (g.foldl (packStep budget) ⟨[], [], 0⟩).cur.isEmpty
  · rw [if_pos hc] at hb
    exact hemit b hb
  · rw [if_neg hc] at hb
    rcases List.mem_append.mp hb with hb | hb
    · exact hemit b hb
    · simp only [List.mem_singleton] at hb
      subst hb
      exact ⟨fun hnil => hc (by rw [hnil]; rfl), hcur⟩

theorem packGroup_mem_of_mem (budget : Nat) (g : List Sequence) {b : Batch} {s : Sequence}
    (hb : b ∈ packGroup budget g) (hs : s ∈ b) : s ∈ g := by
  rw [← packGroup_flatten budget g]
  exact List.mem_flatten.mpr ⟨b, hb, hs⟩

/-! ## Lemmas about max() over the dict keys and the quantization run -/

theorem foldl_max_init (gs : List (Nat × List Sequence)) :
    ∀ a : Nat, a ≤ gs.foldl (fun x q => max x q.1) a := by
  induction gs with
  | nil => intro a; exact Nat.le_refl a
  | cons q rest ih =>
    intro a
    exact Nat.le_trans (Nat.le_max_left a q.1) (ih (max a q.1))

theorem foldl_max_mem (gs : List (Nat × List Sequence)) :
    ∀ a : Nat, ∀ q ∈ gs, q.1 ≤ gs.foldl (fun x q => max x q.1) a := by
  induction gs with
  | nil => intro a q hq; exact absurd hq (List.not_mem_nil q)
  | cons p rest ih =>
    intro a q hq
    rcases List.mem_cons.mp hq with rfl | hq
    · exact Nat.le_trans (Nat.le_max_right a q.1) (foldl_max_init rest (max a q.1))
    · exact ih (max a p.1) q hq

theorem maxKeys_le (gs : List (Nat × List Sequence)) (v : Nat) (h : maxKeys gs = some v) :
    ∀ q ∈ gs, q.1 ≤ v := by
  match gs, h with
  | p :: rest, h =>
    simp only [maxKeys, Option.some.injEq] at h
    intro q hq
    rcases List.mem_cons.mp hq with rfl | hq
    · rw [← h]; exact foldl_max_init rest q.1
    · rw [← h]; exact foldl_max_mem rest p.1 q hq

theorem quant_eq_ok (inputs : List Sequence) (h : buildGroups inputs ≠ []) :
    Quantization.predict_sorted_batches inputs =
      .ok (((buildGroups inputs).map
        (fun p => packGroup (Quantization.budget inputs) p.2)).flatten) := by
  unfold Quantization.predict_sorted_batches Quantization.budget
  obtain ⟨p, gs, hgs⟩ := List.exists_cons_of_ne_nil h
  rw [hgs]
  rfl

theorem quant_eq_err (inputs : List Sequence) (h : buildGroups inputs = []) :
    Quantization.predict_sorted_batches inputs = .error maxEmptyErr := by
  unfold Quantization.predict_sorted_batches
  rw [h]
  rfl

theorem quant_key_le_budget (inputs : List Sequence) {p : Nat × List Sequence}
    (hp : p ∈ buildGroups inputs) : p.1 ≤ Quantization.budget inputs := by
  have h : buildGroups inputs ≠ [] := fun hc => by rw [hc] at hp; exact absurd hp (List.not_mem_nil p)
  obtain ⟨q, gs, hgs⟩ := List.exists_cons_of_ne_nil h
  unfold Quantization.budget
  rw [hgs] at hp ⊢
  exact maxKeys_le (q :: gs) _ rfl p hp

theorem quant_group_fits (inputs : List Sequence) {p : Nat × List Sequence}
    (hp : p ∈ buildGroups inputs) : ∀ s ∈ p.2, s.length ≤ Quantization.budget inputs := by
  intro s hs
  rw [buildGroups_mem_length inputs hp s hs]
  exact quant_key_le_budget inputs hp

/-! ## Lemmas about `minLen` and batch ordering -/

theorem minLen_const (b : Batch) (k : Nat) (hb : b ≠ []) (h : ∀ s ∈ b, s.length = k) :
    minLen b = k := by
  match b, hb with
  | s :: rest, _ =>
    have aux : ∀ (l : List Sequence) (a : Nat), (∀ s ∈ l, s.length = k) → a = k →
        l.foldl (fun a t => min a t.length) a = k := by
      intro l
      induction l with
      | nil => intro a _ ha; exact ha
      | cons t ts ih =>
        intro a hl ha
        rw [List.foldl_cons]
        exact ih (min a t.length) (fun s hs => hl s (List.mem_cons_of_mem _ hs))
          (by rw [ha, hl t (List.mem_cons_self _ _)]; exact Nat.min_self k)
    show rest.foldl (fun a t => min a t.length) s.length = k
    exact aux rest s.length (fun x hx => h x (List.mem_cons_of_mem _ hx))
      (h s (List.mem_cons_self _ _))

theorem flatten_map_flatten (gs : List (Nat × List Sequence))
    (F : Nat × List Sequence → List Batch) (hF : ∀ p ∈ gs, (F p).flatten = p.2) :
    ((gs.map F).flatten).flatten = groupsFlatten gs := by
  induction gs with
  | nil => rfl
  | cons p rest ih =>
    rw [List.map_cons, List.flatten_cons, List.flatten_append,
      hF p (List.mem_cons_self _ _), groupsFlatten_cons,
      ih (fun q hq => hF q (List.mem_cons_of_mem _ hq))]

theorem mem_flatten_map (gs : List (Nat × List Sequence))
    (F : Nat × List Sequence → List Batch) {b : Batch} (hb : b ∈ (gs.map F).flatten) :
    ∃ p ∈ gs, b ∈ F p := by
  obtain ⟨l, hl, hbl⟩ := List.mem_flatten.mp hb
  obtain ⟨p, hp, rfl⟩ := List.mem_map.mp hl
  exact ⟨p, hp, hbl⟩

theorem minLen_flatten_sorted (gs : List (Nat × List Sequence))
    (F : Nat × List Sequence → List Batch)
    (hF : ∀ p ∈ gs, ∀ b ∈ F p, minLen b = p.1)
    (hkeys : (groupKeys gs).Pairwise (· < ·)) :
    (((gs.map F).flatten).map minLen).Pairwise (· ≤ ·) := by
  induction gs with
  | nil => exact List.Pairwise.nil
  | cons p rest ih =>
    rw [groupKeys_cons, List.pairwise_cons] at hkeys
    obtain ⟨hhead, htail⟩ := hkeys
    rw [List.map_cons, List.flatten_cons, List.map_append]
    refine List.pairwise_append.mpr ⟨?_, ?_, ?_⟩
    · apply List.pairwise_of_forall_mem_list
      intro a ha b hb
      obtain ⟨ba, hba, rfl⟩ := List.mem_map.mp ha
      obtain ⟨bb, hbb, rfl⟩ := List.mem_map.mp hb
      rw [hF p (List.mem_cons_self _ _) ba hba, hF p (List.mem_cons_self _ _) bb hbb]
    · exact ih (fun q hq => hF q (List.mem_cons_of_mem _ hq)) htail
    · intro a ha b hb
      obtain ⟨ba, hba, rfl⟩ := List.mem_map.mp ha
      obtain ⟨bb, hbb, rfl⟩ := List.mem_map.mp hb
      obtain ⟨q, hq, hbq⟩ := mem_flatten_map rest F hbb
      rw [hF p (List.mem_cons_self _ _) ba hba,
        hF q (List.mem_cons_of_mem _ hq) bb hbq]
      exact Nat.le_of_lt (hhead q.1 (by exact List.mem_map.mpr ⟨q, hq, rfl⟩))

/-! ## Shared facts about batches built from the length groups -/

theorem groups_batches_facts (inputs : List Sequence) (F : Nat × List Sequence → List Batch)
    (hF : ∀ p ∈ buildGroups inputs, (F p).flatten = p.2) :
    ((((buildGroups inputs).map F).flatten).flatten).Perm
      (inputs.filter (fun s => s.length != 0)) ∧
    ∀ b ∈ ((buildGroups inputs).map F).flatten, ∀ s ∈ b, s.length ≠ 0 := by
  constructor
  · rw [flatten_map_flatten _ F hF]
    exact buildGroups_flatten_perm inputs
  · intro b hb s hs
    obtain ⟨p, hp, hbF⟩ := mem_flatten_map _ F hb
    have hsg : s ∈ p.2 := by
      rw [← hF p hp]
      exact List.mem_flatten.mpr ⟨b, hbF, hs⟩
    rw [buildGroups_mem_length inputs hp s hsg]
    exact (buildGroups_good inputs p hp).2.1

theorem quant_ok_inv (inputs : List Sequence) (bs : List Batch)
    (h : Quantization.predict_sorted_batches inputs = .ok bs) :
    bs = ((buildGroups inputs).map
      (fun p => packGroup (Quantization.budget inputs) p.2)).flatten := by
  have hne : buildGroups inputs ≠ [] := by
    intro hnil
    rw [quant_eq_err inputs hnil] at h
    exact Except.noConfusion h
  have hQ := quant_eq_ok inputs hne
  rw [h] at hQ
  injection hQ

/-! ## Claim theorems -/

/-- Claim C1: for every input list of tokenized sequences (and valid
`max_batch_size` for the sorting.py variant), the multiset of sequences
across all yielded batches equals exactly the non-empty input sequences —
no duplication, no loss — and no zero-length sequence appears in any
yielded batch, for both `predict_sorted_batches` variants. -/
theorem C1_batch_multiset_preserved (inputs : List Sequence) (mbs : Int) (hm : 1 ≤ mbs) :
    ((Sorting.predict_sorted_batches inputs mbs).2 = none ∧
      ((Sorting.predict_sorted_batches inputs mbs).1.flatten).Perm
        (inputs.filter (fun s => s.length != 0)) ∧
      ∀ b ∈ (Sorting.predict_sorted_batches inputs mbs).1, ∀ s ∈ b, s.length ≠ 0) ∧
    ∀ bs : List Batch, Quantization.predict_sorted_batches inputs = .ok bs →
      ((bs.flatten).Perm (inputs.filter (fun s => s.length != 0)) ∧
        ∀ b ∈ bs, ∀ s ∈ b, s.length ≠ 0) := by
  have hm' : 1 ≤ mbs.toNat := by omega
  have hS := predict_sorting_pos inputs mbs hm
  have hFacts := groups_batches_facts inputs (fun p => chunkList mbs.toNat p.2)
    (fun p _ => chunkList_flatten mbs.toNat hm' p.2)
  constructor
  · refine ⟨by rw [hS], ?_, ?_⟩
    · rw [hS]
      exact hFacts.1
    · rw [hS]
      exact hFacts.2
  · intro bs hq
    have hbs := quant_ok_inv inputs bs hq
    have hFactsQ := groups_batches_facts inputs
      (fun p => packGroup (Quantization.budget inputs) p.2)
      (fun p _ => packGroup_flatten _ p.2)
    rw [hbs]
    exact hFactsQ

/-- Witness for C1 at a concrete input: sequences of lengths 1, 0 and 2
with `max_batch_size = 2`. -/
theorem C1_batch_multiset_preserved_witness :
    ((Sorting.predict_sorted_batches [[5], [], [6, 7]] 2).2 = none ∧
      ((Sorting.predict_sorted_batches [[5], [], [6, 7]] 2).1.flatten).Perm
        ([[5], [], [6, 7]].filter (fun s => s.length != 0)) ∧
      ∀ b ∈ (Sorting.predict_sorted_batches [[5], [], [6, 7]] 2).1, ∀ s ∈ b, s.length ≠ 0) ∧
    ∀ bs : List Batch, Quantization.predict_sorted_batches [[5], [], [6, 7]] = .ok bs →
      ((bs.flatten).Perm ([[5], [], [6, 7]].filter (fun s => s.length != 0)) ∧
        ∀ b ∈ bs, ∀ s ∈ b, s.length ≠ 0) :=
  C1_batch_multiset_preserved [[5], [], [6, 7]] 2 (by decide)

/-- Claim C2: under the token-budget policy of `quantization.py` (whose
budget is the maximum input sequence length), every produced batch has
`token_count` at most the budget, or contains exactly one sequence. -/
theorem C2_token_budget_respected (inputs : List Sequence) (bs : List Batch)
    (h : Quantization.predict_sorted_batches inputs = .ok bs) :
    ∀ b ∈ bs, token_count b ≤ Quantization.budget inputs ∨ b.length = 1 := by
  have hbs := quant_ok_inv inputs bs h
  intro b hb
  rw [hbs] at hb
  obtain ⟨p, hp, hbp⟩ := mem_flatten_map _ _ hb
  left
  exact (packGroup_batches (Quantization.budget inputs) p.2
    (quant_group_fits inputs hp) b hbp).2

/-- Witness for C2 at a concrete input with budget 2, evaluated on the
first produced batch. -/
theorem C2_token_budget_respected_witness :
    token_count [[1], [2]] ≤ Quantization.budget [[1], [2], [3], [4, 5]] ∨
      ([[1], [2]] : Batch).length = 1 :=
  C2_token_budget_respected [[1], [2], [3], [4, 5]] [[[1], [2]], [[3]], [[4, 5]]] (by rfl)
    [[1], [2]] (by decide)

/-- Claim C3 counterexample: with `max_batch_size = -1` (a non-positive
sizing parameter) and a valid input, the fixed-count variant neither
raises any error nor yields any batch — the input is silently dropped,
so no `InvalidConfiguration` failure happens before batching. -/
theorem C3_counterexample : Sorting.predict_sorted_batches [[1]] (-1) = ([], none) := by decide

/-- Claim C3 amended: the code has no `InvalidConfiguration` check.  With
`max_batch_size = 0` and at least one valid sequence, the fixed-count
variant raises `ValueError` (from `range`) before yielding any batch;
with a negative `max_batch_size` it does not fail at all and silently
yields no batches; no batch is ever produced with a non-positive
parameter.  The token-budget variant takes no budget parameter, so no
configuration error can arise there. -/
theorem C3_invalid_config_amended (inputs : List Sequence) (m : Int) (hm : m ≤ 0)
    (hne : buildGroups inputs ≠ []) :
    (Sorting.predict_sorted_batches inputs m).1 = [] ∧
    (m = 0 → (Sorting.predict_sorted_batches inputs m).2 = some chunkerZeroErr) ∧
    (m < 0 → (Sorting.predict_sorted_batches inputs m).2 = none) := by
  rcases lt_or_eq_of_le hm with hlt | heq
  · have hres := predict_sorting_neg inputs m hlt
    exact ⟨by rw [hres], fun h0 => absurd h0 (by omega), fun _ => by rw [hres]⟩
  · subst heq
    have hres := predict_sorting_zero inputs hne
    exact ⟨by rw [hres], fun _ => by rw [hres], fun h => absurd h (by omega)⟩

/-- Witness for the amended C3 at `max_batch_size = 0` on input `[[1]]`. -/
theorem C3_invalid_config_amended_witness :
    (Sorting.predict_sorted_batches [[1]] 0).1 = [] ∧
    ((0 : Int) = 0 → (Sorting.predict_sorted_batches [[1]] 0).2 = some chunkerZeroErr) ∧
    ((0 : Int) < 0 → (Sorting.predict_sorted_batches [[1]] 0).2 = none) :=
  C3_invalid_config_amended [[1]] 0 (by decide) (by decide)

/-- Claim C4 counterexample: on the input `[[]]` — one tokenized sequence
of length 0, hence zero valid sequences — the quantization.py variant
fails with `ValueError` (from `max()` over the empty dict) instead of
yielding an empty batch plan without failure. -/
theorem C4_counterexample : Quantization.predict_sorted_batches [[]] = .error maxEmptyErr := by rfl

/-- Claim C4 amended: for an input with zero valid (non-empty) sequences,
the sorting.py variant yields an empty batch plan and does not fail (for
every `max_batch_size`), but the quantization.py variant raises
`ValueError` from `max()` over the keys of the empty dict on first pull. -/
theorem C4_empty_input_amended (inputs : List Sequence) (h : ∀ s ∈ inputs, s.length = 0) :
    (∀ m : Int, Sorting.predict_sorted_batches inputs m = ([], none)) ∧
    Quantization.predict_sorted_batches inputs = .error maxEmptyErr := by
  have hnil := buildGroups_nil_of_all_empty inputs h
  constructor
  · intro m
    unfold Sorting.predict_sorted_batches
    rw [hnil]
    rfl
  · exact quant_eq_err inputs hnil

/-- Witness for the amended C4 at the concrete input `[[]]`. -/
theorem C4_empty_input_amended_witness :
    (∀ m : Int, Sorting.predict_sorted_batches [[]] m = ([], none)) ∧
    Quantization.predict_sorted_batches [[]] = .error maxEmptyErr :=
  C4_empty_input_amended [[]] (by decide)

/-- Claim C5: under the fixed-count policy with `max_items ≥ 1`, each
length group is split into contiguous order-preserving chunks
(concatenating a group's chunks restores the group), every produced
batch has `item_count ≤ max_items`, and five sequences of length 1 with
`max_items = 2` yield batches of sizes `[2, 2, 1]`. -/
theorem C5_fixed_count_respected (inputs : List Sequence) (mbs : Int) (hm : 1 ≤ mbs) :
    (∀ p ∈ buildGroups inputs, (chunkList mbs.toNat p.2).flatten = p.2) ∧
    (∀ b ∈ (Sorting.predict_sorted_batches inputs mbs).1, b.length ≤ mbs.toNat) ∧
    (Sorting.predict_sorted_batches [[1], [2], [3], [4], [5]] 2).1.map List.length =
      [2, 2, 1] := by
  have hm' : 1 ≤ mbs.toNat := by omega
  refine ⟨fun p _ => chunkList_flatten mbs.toNat hm' p.2, ?_, by decide⟩
  intro b hb
  rw [predict_sorting_pos inputs mbs hm] at hb
  obtain ⟨p, hp, hbc⟩ := mem_flatten_map _ _ hb
  exact (chunkList_mem mbs.toNat hm' p.2 b hbc).2

/-- Witness for C5 at the scenario input itself. -/
theorem C5_fixed_count_respected_witness :
    (∀ p ∈ buildGroups [[1], [2], [3], [4], [5]], (chunkList (2 : Int).toNat p.2).flatten = p.2) ∧
    (∀ b ∈ (Sorting.predict_sorted_batches [[1], [2], [3], [4], [5]] 2).1,
      b.length ≤ (2 : Int).toNat) ∧
    (Sorting.predict_sorted_batches [[1], [2], [3], [4], [5]] 2).1.map List.length =
      [2, 2, 1] :=
  C5_fixed_count_respected [[1], [2], [3], [4], [5]] 2 (by decide)

/-- Claim C6: the bucketer produces length groups in strictly ascending
key order with no repeated length, and both variants yield batches in
non-decreasing order of the minimum sequence length they contain. -/
theorem C6_ascending_order (inputs : List Sequence) (mbs : Int) (hm : 1 ≤ mbs) :
    (groupKeys (buildGroups inputs)).Pairwise (· < ·) ∧
    ((Sorting.predict_sorted_batches inputs mbs).1.map minLen).Pairwise (· ≤ ·) ∧
    ∀ bs : List Batch, Quantization.predict_sorted_batches inputs = .ok bs →
      (bs.map minLen).Pairwise (· ≤ ·) := by
  have hkeys := buildGroups_keys_sorted inputs
  have hm' : 1 ≤ mbs.toNat := by omega
  refine ⟨hkeys, ?_, ?_⟩
  · rw [predict_sorting_pos inputs mbs hm]
    apply minLen_flatten_sorted _ _ ?_ hkeys
    intro p hp b hb
    apply minLen_const b p.1 (chunkList_mem mbs.toNat hm' p.2 b hb).1
    intro s hs
    have hsg : s ∈ p.2 := by
      rw [← chunkList_flatten mbs.toNat hm' p.2]
      exact List.mem_flatten.mpr ⟨b, hb, hs⟩
    exact buildGroups_mem_length inputs hp s hsg
  · intro bs hq
    rw [quant_ok_inv inputs bs hq]
    apply minLen_flatten_sorted _ _ ?_ hkeys
    intro p hp b hb
    apply minLen_const b p.1
      (packGroup_batches (Quantization.budget inputs) p.2 (quant_group_fits inputs hp) b hb).1
    intro s hs
    exact buildGroups_mem_length inputs hp s
      (packGroup_mem_of_mem (Quantization.budget inputs) p.2 hb hs)

/-- Witness for C6 at a concrete input with two length groups. -/
theorem C6_ascending_order_witness :
    (groupKeys (buildGroups [[8, 9], [7]])).Pairwise (· < ·) ∧
    ((Sorting.predict_sorted_batches [[8, 9], [7]] 1).1.map minLen).Pairwise (· ≤ ·) ∧
    ∀ bs : List Batch, Quantization.predict_sorted_batches [[8, 9], [7]] = .ok bs →
      (bs.map minLen).Pairwise (· ≤ ·) :=
  C6_ascending_order [[8, 9], [7]] 1 (by decide)

/-- Claim C7: in the token-budget variant the leftover partial batch is
flushed at each length-group boundary and never carried into the next
group, so every produced batch is non-empty and contains only sequences
of one identical length. -/
theorem C7_per_group_flush_uniform (inputs : List Sequence) (bs : List Batch)
    (h : Quantization.predict_sorted_batches inputs = .ok bs) :
    bs = ((buildGroups inputs).map
      (fun p => packGroup (Quantization.budget inputs) p.2)).flatten ∧
    ∀ b ∈ bs, b ≠ [] ∧ ∃ k : Nat, ∀ s ∈ b, s.length = k := by
  have hbs := quant_ok_inv inputs bs h
  refine ⟨hbs, ?_⟩
  intro b hb
  rw [hbs] at hb
  obtain ⟨p, hp, hbp⟩ := mem_flatten_map _ _ hb
  refine ⟨(packGroup_batches (Quantization.budget inputs) p.2
    (quant_group_fits inputs hp) b hbp).1, p.1, ?_⟩
  intro s hs
  exact buildGroups_mem_length inputs hp s
    (packGroup_mem_of_mem (Quantization.budget inputs) p.2 hbp hs)

/-- Witness for C7 at a concrete input whose first group splits into two
batches, with the second group's batch never mixed into the first. -/
theorem C7_per_group_flush_uniform_witness :
    [[[1], [2]], [[3]], [[4, 5]]] = ((buildGroups [[1], [2], [3], [4, 5]]).map
      (fun p => packGroup (Quantization.budget [[1], [2], [3], [4, 5]]) p.2)).flatten ∧
    ∀ b ∈ [[[1], [2]], [[3]], [[4, 5]]], b ≠ [] ∧ ∃ k : Nat, ∀ s ∈ b, s.length = k :=
  C7_per_group_flush_uniform [[1], [2], [3], [4, 5]] [[[1], [2]], [[3]], [[4, 5]]] (by rfl)

/-- Claim C8 counterexample: when an exception escapes the work wrapped
by `track_time`, no elapsed-time report happens — the claim that the
duration is reported on every exit path fails on exceptional exit. -/
theorem C8_counterexample :
    (track_time (BodyExit.raised "RuntimeError" : BodyExit (List Batch))).2 = false := rfl

/-- Claim C8 amended: `track_time` reports the elapsed wall-clock
duration exactly when no exception escapes the wrapped unit of work —
on normal completion and on early non-exceptional exit (`break` or
`return` out of the `with` block), but not on exceptional exit, since
the code after `yield` is not protected by `try/finally`. -/
theorem C8_report_iff_no_exception (α : Type) (b : BodyExit α) :
    (track_time b).2 = true ↔ ∀ e : String, b ≠ BodyExit.raised e := by
  cases b with
  | normal a => simp [track_time]
  | early a => simp [track_time]
  | raised e =>
    simp only [track_time]
    refine ⟨fun h => absurd h (by simp), fun h => absurd rfl (h e)⟩

/-- Claim C9: bucketing plus packing is deterministic — on equal inputs
and configuration both variants produce identical batch plans. -/
theorem C9_deterministic (in1 in2 : List Sequence) (m1 m2 : Int)
    (h1 : in1 = in2) (h2 : m1 = m2) :
    Sorting.predict_sorted_batches in1 m1 = Sorting.predict_sorted_batches in2 m2 ∧
    Quantization.predict_sorted_batches in1 = Quantization.predict_sorted_batches in2 := by
  subst h1
  subst h2
  exact ⟨rfl, rfl⟩

/-- Witness for C9 at a concrete input and configuration. -/
theorem C9_deterministic_witness :
    Sorting.predict_sorted_batches [[1], [2, 3]] 2 =
      Sorting.predict_sorted_batches [[1], [2, 3]] 2 ∧
    Quantization.predict_sorted_batches [[1], [2, 3]] =
      Quantization.predict_sorted_batches [[1], [2, 3]] :=
  C9_deterministic [[1], [2, 3]] [[1], [2, 3]] 2 2 rfl rfl

/-- Claim C10: for every list and every `max_size ≥ 1`, `chunker`
succeeds, concatenating its chunks in order restores the input list, and
every chunk except possibly the last has exactly `max_size` items. -/
theorem C10_chunker_partition (seq : List Sequence) (m : Int) (hm : 1 ≤ m) :
    chunker seq m = .ok (chunkList m.toNat seq) ∧
    (chunkList m.toNat seq).flatten = seq ∧
    ∀ c ∈ (chunkList m.toNat seq).dropLast, c.length = m.toNat := by
  have hm' : 1 ≤ m.toNat := by omega
  exact ⟨chunker_pos seq m hm, chunkList_flatten m.toNat hm' seq,
    chunkList_dropLast m.toNat hm' seq⟩

/-- Witness for C10: three sequences chunked with `max_size = 2`. -/
theorem C10_chunker_partition_witness :
    chunker [[1], [2], [3]] 2 = .ok (chunkList (2 : Int).toNat [[1], [2], [3]]) ∧
    (chunkList (2 : Int).toNat [[1], [2], [3]]).flatten = [[1], [2], [3]] ∧
    ∀ c ∈ (chunkList (2 : Int).toNat [[1], [2], [3]]).dropLast, c.length = (2 : Int).toNat :=
  C10_chunker_partition [[1], [2], [3]] 2 (by decide)
